import Mathlib

/-!
Verification of the resumable frame-extraction planner of `extract_frames.py`
and of its detection-crop stage.

Modelling conventions:
* file names are lists of characters; a directory is a list of file names;
* the video decoder is a pure map from a (seeked) frame position to an
  optional pixel buffer; pixel buffers are abstracted as natural numbers;
* Python float arithmetic in the crop stage is idealized as exact rational
  arithmetic (all concrete values used below are dyadic and exact in floats);
* the regex digit class is modelled by the ASCII digits (every file name the
  program itself produces is ASCII).
-/

/-- The fixed infix `_frame_` of the canonical filename pattern. -/
def FRAME7 : List Char := ['_', 'f', 'r', 'a', 'm', 'e', '_']

/-- Extension alternative `jpg` of `FNAME_RE`. -/
def EXT_JPG : List Char := ['j', 'p', 'g']

/-- Extension alternative `jpeg` of `FNAME_RE`. -/
def EXT_JPEG : List Char := ['j', 'p', 'e', 'g']

/-- Extension alternative `png` of `FNAME_RE`. -/
def EXT_PNG : List Char := ['p', 'n', 'g']

/-- The extension alternatives `(jpg|jpeg|png)` of `FNAME_RE` (line 14). -/
def EXTS : List (List Char) := [EXT_JPG, EXT_JPEG, EXT_PNG]

/-- ASCII decimal digit test, modelling the digit class of `FNAME_RE`. -/
def isDigitC (c : Char) : Bool := 48 ≤ c.toNat && c.toNat ≤ 57

/-- Case-insensitive matching (`re.IGNORECASE`) is modelled by lowering. -/
def lowName (l : List Char) : List Char := l.map Char.toLower

/-- Python `int()` applied to the six-digit index group of a match. -/
def digitsToNat (ds : List Char) : Nat := ds.foldl (fun a c => 10 * a + (c.toNat - 48)) 0

/-- Length of the extension alternative matched at the end of the name:
`.jpg` / `.png` give 3, `.jpeg` gives 4.  The alternation of `FNAME_RE` is
anchored by the final `$`, so the last four (lowered) characters already
decide which alternative can match. -/
def extLen (name : List Char) : Option Nat :=
  if (lowName name).drop (name.length - 4) = ['.', 'j', 'p', 'g']
      ∨ (lowName name).drop (name.length - 4) = ['.', 'p', 'n', 'g'] then some 3
  else if (lowName name).drop (name.length - 5) = ['.', 'j', 'p', 'e', 'g'] then some 4
  else none

/-- `FNAME_RE.match` (line 14): `^(?P<base>.+)_frame_(?P<idx>\d{6})\.(jpg|jpeg|png)$`,
case-insensitive.  Since the pattern is anchored at both ends and the index
field has fixed width 6, a name matches exactly when it splits as
`base ++ "_frame_" ++ (six digits) ++ "." ++ ext` with `base` nonempty, the
split position being determined by `extLen`.  Returns the base and the index. -/
def matchFrame (name : List Char) : Option (List Char × Nat) :=
  match extLen name with
  | none => none
  | some el =>
    if 14 + el < name.length then
      if lowName ((name.drop (name.length - (14 + el))).take 7) = FRAME7
          ∧ (((name.drop (name.length - (14 + el))).drop 7).take 6).all isDigitC = true then
        some (name.take (name.length - (14 + el)),
              digitsToNat (((name.drop (name.length - (14 + el))).drop 7).take 6))
      else none
    else none

/-- Decimal digit character. -/
def digitChar (k : Nat) : Char := Char.ofNat (48 + k)

/-- Decimal digits of a number, most significant first (no padding). -/
def natDigitsAux (n : Nat) (acc : List Char) : List Char :=
  if n < 10 then digitChar n :: acc
  else natDigitsAux (n / 10) (digitChar (n % 10) :: acc)
termination_by n
decreasing_by
  simp_wf
  omega

/-- The six base-10 digits of `i < 10^6`, most significant first. -/
def sixDigits (i : Nat) : List Char :=
  [digitChar (i / 100000 % 10), digitChar (i / 10000 % 10), digitChar (i / 1000 % 10),
   digitChar (i / 100 % 10), digitChar (i / 10 % 10), digitChar (i % 10)]

/-- Python `f"{i:06d}"`: the decimal digits of `i`, left-padded with zeros to
width at least 6.  For `i < 10^6` this is exactly the six base-10 digits; for
larger `i` the unpadded decimal digits. -/
def pad6 (i : Nat) : List Char :=
  if i < 1000000 then sixDigits i else natDigitsAux i []

/-- The output filename `f"{base}_frame_{i:06d}.{image_ext}"` (lines 210, 227). -/
def writtenName (base : List Char) (i : Nat) (ext : List Char) : List Char :=
  base ++ FRAME7 ++ pad6 i ++ '.' :: ext

/-- `_existing_indices(out_dir, base)` (lines 53-62): the sorted list of
indices of files in the directory whose name matches `FNAME_RE` with the
queried base. -/
def existing_indices (files : List (List Char)) (base : List Char) : List Nat :=
  (files.filterMap (fun f =>
    match matchFrame f with
    | some p => if p.1 = base then some p.2 else none
    | none => none)).insertionSort (· ≤ ·)

/-- Unknown-length resume point: `existing_max + 1` where `existing_max` is
`max(existing)` if any index exists, else `-1` (lines 152, 182, 217). -/
def startIndexUnknown (existing : List Nat) : Nat :=
  match existing.max? with
  | some m => m + 1
  | none => 0

/-- `expected_saves = ceil(total_frames / max(every_nth, 1))` (line 131), as
exact integer arithmetic. -/
def expectedSaves (totalFrames : Nat) (everyNth : Int) : Nat :=
  (totalFrames + ((max everyNth 1).toNat - 1)) / (max everyNth 1).toNat

/-- Known-length target planning (lines 141-149): with overwrite, all indices
`0 .. expected-1` (`sorted(range(expected_saves))`); otherwise
`sorted(should_exist - existing)`, which for the initial segment
`should_exist = {0..expected-1}` is the ascending filter of the range. -/
def planTargets (overwrite : Bool) (expected : Nat) (existing : List Nat) : List Nat :=
  if overwrite then List.range expected
  else (List.range expected).filter (fun i => decide (i ∉ existing))

/-- Known-length frame writer (lines 206-214): for each target `i`,
`_save_frame` seeks to `frame_number = i * every_nth` and reads once; on
success the frame is written at index `i` and the progress counter advances;
on failure nothing is written and the counter is untouched.  `decode` models
seek-then-read; the result lists the written `(index, frame)` pairs in order
together with the number of progress updates. -/
def knownWriter (decode : Int → Option Nat) (everyNth : Int) : List Nat → List (Nat × Nat) × Nat
  | [] => ([], 0)
  | i :: rest =>
    match decode ((i : Int) * everyNth) with
    | some f =>
      ((i, f) :: (knownWriter decode everyNth rest).1, (knownWriter decode everyNth rest).2 + 1)
    | none => knownWriter decode everyNth rest

/-- Unknown-length sequential loop (lines 222-236): read one frame at `pos`;
on end-of-stream stop; otherwise write it at the running index `i`, increment
the index, and when `every_nth > 1` advance the position (which the read left
at `pos + 1`) by `every_nth - 1` additional frames. -/
def unknownLoop (frames : List Nat) (everyNth : Int) (pos : Int) (i : Nat) : List (Nat × Nat) :=
  if h : 0 ≤ pos ∧ pos.toNat < frames.length then
    (i, frames.getD pos.toNat 0) ::
      unknownLoop frames everyNth
        (if 1 < everyNth then (pos + 1) + (everyNth - 1) else pos + 1) (i + 1)
  else []
termination_by frames.length - pos.toNat
decreasing_by
  simp_wf
  split <;> omega

/-- Unknown-length path of the writer (lines 215-237): seek once to
`start_i * every_nth`, then run the sequential loop from there. -/
def unknownWriter (frames : List Nat) (everyNth : Int) (startI : Nat) : List (Nat × Nat) :=
  unknownLoop frames everyNth ((startI : Int) * everyNth) startI

/-- Unknown-length job construction (lines 139, 174-183): `existing_max` is
computed from the scanned indices irrespective of the `overwrite` flag, and
the writer resumes at `existing_max + 1` (line 217). -/
def mkUnknownStart (_overwrite : Bool) (existing : List Nat) : Nat :=
  startIndexUnknown existing

/-- Python `int()` on a float: truncation toward zero. -/
def truncQ (q : ℚ) : Int := if q < 0 then -(⌊-q⌋) else ⌊q⌋

/-- Pixel bounds of a detection box (lines 297-302): scale the normalized
center/size box by the image extent, truncate with `int()`, then clamp the
low bounds with `max(0, ·)` and the high bounds with `min(W, ·)` / `min(H, ·)`. -/
def cropBounds (cx cy w h : ℚ) (W H : Nat) : Int × Int × Int × Int :=
  (max 0 (truncQ ((cx - w / 2) * (W : ℚ))),
   max 0 (truncQ ((cy - h / 2) * (H : ℚ))),
   min (W : Int) (truncQ ((cx + w / 2) * (W : ℚ))),
   min (H : Int) (truncQ ((cy + h / 2) * (H : ℚ))))

/-- Modelled from the spec: the pixel-bound computation as the specification
words it, with `round` in place of the code's `int()` truncation and with
every bound clamped to the full interval `[0, W]` / `[0, H]`.  Present only
to compare the spec's wording against `cropBounds`. -/
def cropBoundsSpec (cx cy w h : ℚ) (W H : Nat) : Int × Int × Int × Int :=
  (min (W : Int) (max 0 (round ((cx - w / 2) * (W : ℚ)))),
   min (H : Int) (max 0 (round ((cy - h / 2) * (H : ℚ)))),
   min (W : Int) (max 0 (round ((cx + w / 2) * (W : ℚ)))),
   min (H : Int) (max 0 (round ((cy + h / 2) * (H : ℚ)))))

/-- Area `w * h` of a normalized box `(cx, cy, w, h)` (line 295). -/
def boxArea (b : ℚ × ℚ × ℚ × ℚ) : ℚ := b.2.2.1 * b.2.2.2

/-- `max(range(len(areas)), key=lambda i: areas[i])` (line 296): the first
index attaining the largest area (Python `max` keeps the earliest maximum). -/
def selectIdx (areas : List ℚ) : Nat :=
  (List.range areas.length).foldl
    (fun cur j => if areas.getD cur 0 < areas.getD j 0 then j else cur) 0

/-- Outcome of one image step of the detection-crop stage. -/
inductive CropAction where
  | skipNoBoxes : CropAction
  | write : Int × Int × Int × Int → CropAction
deriving DecidableEq

/-- One image step of `run_dino_crop` (lines 287-311): skip when the detector
returns no boxes; otherwise crop around the largest-area box.  The detector's
scores are returned but discarded (`boxes, _, _ = predict(...)`) and play no
role.  There is no degeneracy check: the (possibly empty) crop region is
always handed to the image writer. -/
def dinoStep (boxes : List (ℚ × ℚ × ℚ × ℚ)) (_scores : List ℚ) (W H : Nat) : CropAction :=
  if boxes.length = 0 then CropAction.skipNoBoxes
  else
    CropAction.write
      (cropBounds (boxes.getD (selectIdx (boxes.map boxArea)) (0, 0, 0, 0)).1
        (boxes.getD (selectIdx (boxes.map boxArea)) (0, 0, 0, 0)).2.1
        (boxes.getD (selectIdx (boxes.map boxArea)) (0, 0, 0, 0)).2.2.1
        (boxes.getD (selectIdx (boxes.map boxArea)) (0, 0, 0, 0)).2.2.2 W H)

/-- A decoder whose frame at position `n` is the value `n` itself; used to
exhibit which source position each save-index reads. -/
def posDecoder : Int → Option Nat := fun n => if 0 ≤ n then some n.toNat else none

/-- Ceiling division on naturals. -/
def cdiv (n m : Nat) : Nat := (n + m - 1) / m

/-! ### Digit and filename lemmas -/

lemma digitChar_toNat (k : Nat) (hk : k < 10) : (digitChar k).toNat = 48 + k := by
  have h := (by decide : ∀ j : Fin 10, (digitChar j.val).toNat = 48 + j.val) ⟨k, hk⟩
  exact h

lemma isDigitC_digitChar (k : Nat) (hk : k < 10) : isDigitC (digitChar k) = true := by
  have h := (by decide : ∀ j : Fin 10, isDigitC (digitChar j.val) = true) ⟨k, hk⟩
  exact h

lemma sixDigits_length (i : Nat) : (sixDigits i).length = 6 := rfl

lemma sixDigits_all_digits (i : Nat) : (sixDigits i).all isDigitC = true := by
  have h10 : (0:Nat) < 10 := by norm_num
  simp only [sixDigits, List.all_cons, List.all_nil, Bool.and_true,
    isDigitC_digitChar (i / 100000 % 10) (Nat.mod_lt _ h10),
    isDigitC_digitChar (i / 10000 % 10) (Nat.mod_lt _ h10),
    isDigitC_digitChar (i / 1000 % 10) (Nat.mod_lt _ h10),
    isDigitC_digitChar (i / 100 % 10) (Nat.mod_lt _ h10),
    isDigitC_digitChar (i / 10 % 10) (Nat.mod_lt _ h10),
    isDigitC_digitChar (i % 10) (Nat.mod_lt _ h10)]

lemma digitsToNat_sixDigits (i : Nat) (hi : i < 1000000) : digitsToNat (sixDigits i) = i := by
  have h10 : (0:Nat) < 10 := by norm_num
  simp only [digitsToNat, sixDigits, List.foldl,
    digitChar_toNat (i / 100000 % 10) (Nat.mod_lt _ h10),
    digitChar_toNat (i / 10000 % 10) (Nat.mod_lt _ h10),
    digitChar_toNat (i / 1000 % 10) (Nat.mod_lt _ h10),
    digitChar_toNat (i / 100 % 10) (Nat.mod_lt _ h10),
    digitChar_toNat (i / 10 % 10) (Nat.mod_lt _ h10),
    digitChar_toNat (i % 10) (Nat.mod_lt _ h10)]
  omega

lemma pad6_eq_sixDigits (i : Nat) (hi : i < 1000000) : pad6 i = sixDigits i := by
  rw [pad6, if_pos hi]

lemma digitsToNat_lt_pow (ds : List Char) (a : Nat) (h : ds.all isDigitC = true) :
    ds.foldl (fun a c => 10 * a + (c.toNat - 48)) a < (a + 1) * 10 ^ ds.length := by
  induction ds generalizing a with
  | nil => simp
  | cons c rest ih =>
    rw [List.all_cons, Bool.and_eq_true] at h
    have hc : c.toNat - 48 ≤ 9 := by
      have := h.1
      simp only [isDigitC, Bool.and_eq_true, decide_eq_true_eq] at this
      omega
    calc (c :: rest).foldl (fun a c => 10 * a + (c.toNat - 48)) a
        = rest.foldl (fun a c => 10 * a + (c.toNat - 48)) (10 * a + (c.toNat - 48)) := rfl
      _ < (10 * a + (c.toNat - 48) + 1) * 10 ^ rest.length := ih _ h.2
      _ ≤ ((a + 1) * 10) * 10 ^ rest.length := by
          apply Nat.mul_le_mul_right
          omega
      _ = (a + 1) * 10 ^ (c :: rest).length := by
          rw [List.length_cons, pow_succ]
          ring

lemma lowName_append (a b : List Char) : lowName (a ++ b) = lowName a ++ lowName b :=
  List.map_append Char.toLower a b

lemma lowName_length (l : List Char) : (lowName l).length = l.length := List.length_map l _

lemma lowName_FRAME7 : lowName FRAME7 = FRAME7 := by decide

lemma drop_all_left {a : List Char} (b : List Char) {n : Nat} (h : a.length ≤ n) :
    (a ++ b).drop n = b.drop (n - a.length) := by
  rw [List.drop_append_eq_append_drop, List.drop_eq_nil_of_le h, List.nil_append]

/-- The suffix `_frame_DDDDDD.ext` of a produced filename. -/
def nameSuffix (i : Nat) (ext : List Char) : List Char :=
  FRAME7 ++ (pad6 i ++ '.' :: ext)

lemma writtenName_eq (base : List Char) (i : Nat) (ext : List Char) :
    writtenName base i ext = base ++ nameSuffix i ext := by
  simp [writtenName, nameSuffix]

lemma nameSuffix_length (i : Nat) (ext : List Char) (hi : i < 1000000) :
    (nameSuffix i ext).length = 14 + ext.length := by
  simp [nameSuffix, pad6_eq_sixDigits i hi, FRAME7, sixDigits]
  omega

lemma lowName_dot_cons (ext : List Char) : lowName ('.' :: ext) = '.' :: lowName ext := by
  have hdot : Char.toLower '.' = '.' := by decide
  simp [lowName, hdot]

lemma lowName_nameSuffix_drop (i : Nat) (ext : List Char) (hi : i < 1000000) (j : Nat) :
    (lowName (nameSuffix i ext)).drop (13 + j) = ('.' :: lowName ext).drop j := by
  have hassoc : nameSuffix i ext = (FRAME7 ++ pad6 i) ++ '.' :: ext := by
    simp [nameSuffix]
  rw [hassoc, lowName_append]
  have hA : (lowName (FRAME7 ++ pad6 i)).length = 13 := by
    rw [lowName_length, List.length_append, pad6_eq_sixDigits i hi, sixDigits_length]
    rfl
  rw [drop_all_left _ (by rw [hA]; omega), hA]
  have hj : 13 + j - 13 = j := by omega
  rw [hj, lowName_dot_cons]

lemma writtenName_length (base : List Char) (i : Nat) (ext : List Char) (hi : i < 1000000) :
    (writtenName base i ext).length = base.length + (14 + ext.length) := by
  rw [writtenName_eq, List.length_append, nameSuffix_length _ _ hi]

lemma lowName_writtenName_drop (base : List Char) (i : Nat) (ext : List Char)
    (hi : i < 1000000) (j : Nat) :
    (lowName (writtenName base i ext)).drop (base.length + (13 + j)) =
      ('.' :: lowName ext).drop j := by
  rw [writtenName_eq, lowName_append, drop_all_left _ (by rw [lowName_length]; omega)]
  rw [lowName_length]
  have h : base.length + (13 + j) - base.length = 13 + j := by omega
  rw [h, lowName_nameSuffix_drop i ext hi j]

lemma extLen_writtenName (base ext : List Char) (i : Nat) (hi : i < 1000000)
    (he : lowName ext ∈ EXTS) : extLen (writtenName base i ext) = some ext.length := by
  have hlen := writtenName_length base i ext hi
  have hextlen : (lowName ext).length = ext.length := lowName_length ext
  simp only [EXTS, EXT_JPG, EXT_JPEG, EXT_PNG, List.mem_cons, List.mem_singleton,
    List.not_mem_nil, or_false] at he
  rcases he with hE | hE | hE
  · have h3 : ext.length = 3 := by rw [← hextlen, hE]; rfl
    have h4 : (writtenName base i ext).length - 4 = base.length + (13 + 0) := by omega
    rw [extLen, h4, lowName_writtenName_drop base i ext hi 0]
    rw [if_pos (Or.inl (by rw [hE]; rfl))]
    rw [h3]
  · have h4l : ext.length = 4 := by rw [← hextlen, hE]; rfl
    have h4 : (writtenName base i ext).length - 4 = base.length + (13 + 1) := by omega
    have h5 : (writtenName base i ext).length - 5 = base.length + (13 + 0) := by omega
    rw [extLen, h4, h5, lowName_writtenName_drop base i ext hi 1,
      lowName_writtenName_drop base i ext hi 0]
    rw [if_neg (by rw [hE]; decide), if_pos (by rw [hE]; rfl)]
    rw [h4l]
  · have h3 : ext.length = 3 := by rw [← hextlen, hE]; rfl
    have h4 : (writtenName base i ext).length - 4 = base.length + (13 + 0) := by omega
    rw [extLen, h4, lowName_writtenName_drop base i ext hi 0]
    rw [if_pos (Or.inr (by rw [hE]; rfl))]
    rw [h3]

lemma matchFrame_writtenName (base ext : List Char) (i : Nat) (hb : base ≠ [])
    (hi : i < 1000000) (he : lowName ext ∈ EXTS) :
    matchFrame (writtenName base i ext) = some (base, i) := by
  have hlen := writtenName_length base i ext hi
  have hbpos : 0 < base.length := List.length_pos.mpr hb
  rw [matchFrame, extLen_writtenName base ext i hi he]
  have hguard : 14 + ext.length < (writtenName base i ext).length := by omega
  have hcut : (writtenName base i ext).length - (14 + ext.length) = base.length := by omega
  have hdrop : (writtenName base i ext).drop (base.length) = nameSuffix i ext := by
    rw [writtenName_eq]
    exact List.drop_left base _
  have htake : (writtenName base i ext).take (base.length) = base := by
    rw [writtenName_eq]
    exact List.take_left base _
  have htake7 : (nameSuffix i ext).take 7 = FRAME7 := List.take_left' rfl
  have hdrop7 : (nameSuffix i ext).drop 7 = pad6 i ++ '.' :: ext := List.drop_left' rfl
  have hpadlen : (pad6 i).length = 6 := by rw [pad6_eq_sixDigits i hi, sixDigits_length]
  have htake6 : (pad6 i ++ '.' :: ext).take 6 = pad6 i := List.take_left' hpadlen
  simp only [hcut, hdrop, htake, htake7, hdrop7, htake6]
  rw [if_pos hguard]
  rw [if_pos ⟨by rw [lowName_FRAME7], by
    rw [pad6_eq_sixDigits i hi]; exact sixDigits_all_digits i⟩]
  rw [pad6_eq_sixDigits i hi, digitsToNat_sixDigits i hi]

lemma matchFrame_idx_lt (name b : List Char) (i : Nat)
    (h : matchFrame name = some (b, i)) : i < 1000000 := by
  rw [matchFrame] at h
  cases hE : extLen name with
  | none => rw [hE] at h; exact absurd h (by simp)
  | some el =>
    rw [hE] at h
    simp only at h
    by_cases h1 : 14 + el < name.length
    · rw [if_pos h1] at h
      by_cases h2 : lowName ((name.drop (name.length - (14 + el))).take 7) = FRAME7
          ∧ (((name.drop (name.length - (14 + el))).drop 7).take 6).all isDigitC = true
      · rw [if_pos h2] at h
        have hpair : (name.take (name.length - (14 + el)),
            digitsToNat (((name.drop (name.length - (14 + el))).drop 7).take 6)) = (b, i) := by
          injection h
        have heq : digitsToNat (((name.drop (name.length - (14 + el))).drop 7).take 6) = i :=
          congrArg Prod.snd hpair
        have hlt := digitsToNat_lt_pow (((name.drop (name.length - (14 + el))).drop 7).take 6) 0 h2.2
        rw [digitsToNat] at heq
        have hlen6 : ((((name.drop (name.length - (14 + el))).drop 7).take 6)).length ≤ 6 := by
          rw [List.length_take]
          omega
        have hpow : 10 ^ ((((name.drop (name.length - (14 + el))).drop 7).take 6)).length ≤ 10 ^ 6 :=
          Nat.pow_le_pow_right (by norm_num) hlen6
        calc i = _ := heq.symm
          _ < (0 + 1) * 10 ^ _ := hlt
          _ ≤ 10 ^ 6 := by rw [Nat.one_mul]; exact hpow
          _ = 1000000 := by norm_num
      · rw [if_neg h2] at h; exact absurd h (by simp)
    · rw [if_neg h1] at h; exact absurd h (by simp)

lemma mem_existing_indices (files : List (List Char)) (base : List Char) (i : Nat) :
    i ∈ existing_indices files base ↔ ∃ f ∈ files, matchFrame f = some (base, i) := by
  rw [existing_indices, (List.perm_insertionSort _ _).mem_iff, List.mem_filterMap]
  constructor
  · rintro ⟨f, hf, hm⟩
    refine ⟨f, hf, ?_⟩
    cases hE : matchFrame f with
    | none => rw [hE] at hm; exact absurd hm (by simp)
    | some p =>
      obtain ⟨p1, p2⟩ := p
      rw [hE] at hm
      by_cases hb : p1 = base
      · simp only [hb, if_pos rfl] at hm
        injection hm with h2
        rw [hb, h2]
      · simp only [if_neg hb] at hm
        exact absurd hm (by simp)
  · rintro ⟨f, hf, hm⟩
    exact ⟨f, hf, by rw [hm]; simp⟩

lemma existing_indices_lt (files : List (List Char)) (base : List Char) :
    ∀ i ∈ existing_indices files base, i < 1000000 := by
  intro i hi
  rw [mem_existing_indices] at hi
  obtain ⟨f, _, hm⟩ := hi
  exact matchFrame_idx_lt f base i hm

/-! ### Maximum and ceiling-division lemmas -/

lemma foldl_max_le_self (l : List Nat) : ∀ x : Nat, x ≤ l.foldl max x := by
  induction l with
  | nil => simp
  | cons a as ih => intro x; exact le_trans (le_max_left x a) (ih (max x a))

lemma mem_le_foldl_max (l : List Nat) : ∀ x b : Nat, b ∈ l → b ≤ l.foldl max x := by
  induction l with
  | nil => simp
  | cons a as ih =>
    intro x b hb
    rcases List.mem_cons.mp hb with rfl | hb
    · exact le_trans (le_max_right x b) (foldl_max_le_self as _)
    · exact ih _ b hb

lemma foldl_max_mem (l : List Nat) : ∀ x : Nat, l.foldl max x = x ∨ l.foldl max x ∈ l := by
  induction l with
  | nil => simp
  | cons a as ih =>
    intro x
    rcases ih (max x a) with h | h
    · rcases max_cases x a with ⟨he, _⟩ | ⟨he, _⟩
      · left; rw [List.foldl_cons, h, he]
      · right; rw [List.foldl_cons, h, he]; exact List.mem_cons_self a as
    · right; exact List.mem_cons_of_mem a h

lemma max?_eq_some_of (l : List Nat) (a : Nat) (ha : a ∈ l) (hub : ∀ b ∈ l, b ≤ a) :
    l.max? = some a := by
  cases l with
  | nil => simp at ha
  | cons x xs =>
    show some (xs.foldl max x) = some a
    congr 1
    refine le_antisymm ?_ ?_
    · rcases foldl_max_mem xs x with h | h
      · rw [h]; exact hub x (List.mem_cons_self x xs)
      · exact hub _ (List.mem_cons_of_mem x h)
    · rcases List.mem_cons.mp ha with rfl | ha
      · exact foldl_max_le_self xs a
      · exact mem_le_foldl_max xs x a ha

lemma mem_le_of_max?_eq (l : List Nat) (a b : Nat) (h : l.max? = some a) (hb : b ∈ l) :
    b ≤ a := by
  cases l with
  | nil => simp at hb
  | cons x xs =>
    have he : xs.foldl max x = a := by
      have : some (xs.foldl max x) = some a := h
      injection this
    rcases List.mem_cons.mp hb with rfl | hb
    · rw [← he]; exact foldl_max_le_self xs b
    · rw [← he]; exact mem_le_foldl_max xs x b hb

lemma cdiv_pos_rec (n m : Nat) (hn : 0 < n) (hm : 0 < m) : cdiv n m = 1 + cdiv (n - m) m := by
  unfold cdiv
  rcases le_or_lt n m with h | h
  · have h1 : n - m = 0 := by omega
    rw [h1]
    have h2 : (n + m - 1) / m = 1 := by
      apply Nat.div_eq_of_lt_le <;> omega
    have h3 : (0 + m - 1) / m = 0 := Nat.div_eq_of_lt (by omega)
    rw [h2, h3]
  · have e1 : n + m - 1 = ((n - m) + m - 1) + m := by omega
    rw [e1, Nat.add_div_right _ hm]
    omega

lemma cdiv_mul_ge (n m : Nat) (hm : 0 < m) : n ≤ cdiv n m * m := by
  unfold cdiv
  rw [Nat.mul_comm]
  have h := Nat.div_add_mod (n + m - 1) m
  have h2 := Nat.mod_lt (n + m - 1) hm
  omega

lemma lt_cdiv_mul_lt (n m j : Nat) (hm : 0 < m) (hj : j < cdiv n m) : j * m < n := by
  by_contra h
  push_neg at h
  have h2 : cdiv n m ≤ j := by
    unfold cdiv
    have h3 : (n + m - 1) / m < j + 1 := by
      rw [Nat.div_lt_iff_lt_mul hm, Nat.succ_mul]
      omega
    omega
  omega

lemma cdiv_eq_zero (m : Nat) (hm : 0 < m) : cdiv 0 m = 0 := by
  unfold cdiv
  exact Nat.div_eq_of_lt (by omega)

lemma ceil_cast_div (F m : Nat) (hm : 0 < m) : ⌈(F : ℚ) / (m : ℚ)⌉₊ = (F + m - 1) / m := by
  rcases Nat.eq_zero_or_pos F with rfl | hF
  · simp [Nat.div_eq_of_lt (by omega : m - 1 < m)]
  · have hm' : (0:ℚ) < (m:ℚ) := by positivity
    set q := (F + m - 1) / m with hq
    have hqm : F ≤ q * m := by
      rw [hq, Nat.mul_comm]
      have h := Nat.div_add_mod (F + m - 1) m
      have h2 := Nat.mod_lt (F + m - 1) hm
      omega
    have hq1 : 1 ≤ q := by
      rw [hq, Nat.le_div_iff_mul_le hm]
      omega
    apply le_antisymm
    · apply Nat.ceil_le.mpr
      rw [div_le_iff₀ hm']
      exact_mod_cast (by exact_mod_cast hqm : (F:ℚ) ≤ ((q * m : Nat) : ℚ))
    · by_contra hcon
      push_neg at hcon
      have h1 : ⌈(F:ℚ) / (m:ℚ)⌉₊ ≤ q - 1 := by omega
      have h2 : (F:ℚ) / (m:ℚ) ≤ ((q - 1 : Nat) : ℚ) :=
        le_trans (Nat.le_ceil _) (by exact_mod_cast h1)
      rw [div_le_iff₀ hm'] at h2
      have h3 : (F:ℚ) ≤ (((q - 1) * m : Nat) : ℚ) := by push_cast; linarith
      have h4 : F ≤ (q - 1) * m := by exact_mod_cast h3
      rw [Nat.sub_one_mul] at h4
      have h7 : q * m ≤ F + m - 1 := (Nat.le_div_iff_mul_le hm).mp (le_of_eq hq)
      omega

lemma expectedSaves_of_pos (F : Nat) (s : Int) (hs : 1 ≤ s) :
    expectedSaves F s = cdiv F s.toNat := by
  rw [expectedSaves, max_eq_left hs, cdiv]
  congr 1
  omega

/-! ### Writer characterizations -/

lemma knownWriter_char (decode : Int → Option Nat) (s : Int) (targets : List Nat) :
    (knownWriter decode s targets).1 =
      targets.filterMap (fun (i : Nat) => (decode ((i : Int) * s)).map (fun f => (i, f))) ∧
    (knownWriter decode s targets).2 =
      (targets.filter (fun (i : Nat) => (decode ((i : Int) * s)).isSome)).length := by
  induction targets with
  | nil => exact ⟨rfl, rfl⟩
  | cons i rest ih =>
    cases hd : decode ((i : Int) * s) with
    | none =>
      simp [knownWriter, hd, List.filterMap_cons, List.filter_cons, ih.1, ih.2]
    | some f =>
      simp [knownWriter, hd, List.filterMap_cons, List.filter_cons, ih.1, ih.2]

lemma unknownLoop_sample (frames : List Nat) (s : Int) (hs : 1 ≤ s) :
    ∀ (k : Nat) (pos : Int) (i : Nat), 0 ≤ pos → frames.length - pos.toNat = k →
    unknownLoop frames s pos i =
      (List.range (cdiv k s.toNat)).map
        (fun j => (i + j, frames.getD (pos.toNat + j * s.toNat) 0)) := by
  intro k
  induction k using Nat.strong_induction_on with
  | _ k ih =>
    intro pos i hpos hk
    by_cases hend : pos.toNat < frames.length
    · have hk0 : 0 < k := by omega
      have hs0 : 0 < s.toNat := by omega
      rw [unknownLoop, dif_pos ⟨hpos, hend⟩]
      have hposnext : (if 1 < s then (pos + 1) + (s - 1) else pos + 1) = pos + s := by
        split <;> omega
      rw [hposnext]
      have htn : (pos + s).toNat = pos.toNat + s.toNat := by omega
      have hk' : frames.length - (pos + s).toNat = k - s.toNat := by omega
      rw [ih (k - s.toNat) (by omega) (pos + s) (i + 1) (by omega) hk']
      rw [cdiv_pos_rec k s.toNat hk0 hs0]
      rw [Nat.add_comm 1 (cdiv (k - s.toNat) s.toNat), List.range_succ_eq_map,
        List.map_cons, List.map_map]
      congr 1
      · simp
      · apply List.map_congr_left
        intro j hj
        show (i + 1 + j, frames.getD ((pos + s).toNat + j * s.toNat) 0) =
          (i + Nat.succ j, frames.getD (pos.toNat + Nat.succ j * s.toNat) 0)
        have h1 : i + 1 + j = i + Nat.succ j := by omega
        have h2 : (pos + s).toNat + j * s.toNat = pos.toNat + Nat.succ j * s.toNat := by
          rw [htn, Nat.succ_mul]
          omega
        rw [h1, h2]
    · rw [unknownLoop, dif_neg (fun hcon => hend hcon.2)]
      have hk0 : k = 0 := by omega
      rw [hk0, cdiv_eq_zero s.toNat (by omega), List.range_zero, List.map_nil]

lemma unknownWriter_sample (frames : List Nat) (s : Int) (hs : 1 ≤ s) (st : Nat) :
    unknownWriter frames s st =
      (List.range (cdiv (frames.length - st * s.toNat) s.toNat)).map
        (fun j => (st + j, frames.getD ((st + j) * s.toNat) 0)) := by
  have hsn : (0:Int) ≤ s := by omega
  have hmul : ((st : Int) * s).toNat = st * s.toNat := by
    rcases Int.eq_ofNat_of_zero_le hsn with ⟨m, rfl⟩
    rw [← Int.natCast_mul, Int.toNat_natCast, Int.toNat_natCast]
  rw [unknownWriter,
    unknownLoop_sample frames s hs (frames.length - ((st : Int) * s).toNat) _ _
      (mul_nonneg (Int.natCast_nonneg st) hsn) rfl, hmul]
  apply List.map_congr_left
  intro j hj
  have h : st * s.toNat + j * s.toNat = (st + j) * s.toNat := (Nat.add_mul st j _).symm
  rw [h]

/-! ### Selection and truncation lemmas -/

lemma argmax_foldl (f : Nat → ℚ) : ∀ n : Nat, 0 < n →
    ((List.range n).foldl (fun cur j => if f cur < f j then j else cur) 0) < n ∧
    (∀ j < n, f j ≤ f ((List.range n).foldl (fun cur j => if f cur < f j then j else cur) 0)) ∧
    (∀ j < (List.range n).foldl (fun cur j => if f cur < f j then j else cur) 0,
      f j < f ((List.range n).foldl (fun cur j => if f cur < f j then j else cur) 0)) := by
  intro n
  induction n with
  | zero => omega
  | succ n ih =>
    intro _
    rcases Nat.eq_zero_or_pos n with rfl | hn
    · have h0 : (List.range 1).foldl (fun cur j => if f cur < f j then j else cur) 0 = 0 := by
        rw [List.range_succ, List.range_zero, List.nil_append, List.foldl_cons,
          List.foldl_nil, if_neg (lt_irrefl _)]
      rw [h0]
      refine ⟨by omega, ?_, by omega⟩
      intro j hj
      have : j = 0 := by omega
      rw [this]
    · obtain ⟨ihlt, ihub, ihfst⟩ := ih hn
      have hfold : (List.range (n + 1)).foldl (fun cur j => if f cur < f j then j else cur) 0 =
          (if f ((List.range n).foldl (fun cur j => if f cur < f j then j else cur) 0) < f n
           then n
           else (List.range n).foldl (fun cur j => if f cur < f j then j else cur) 0) := by
        rw [List.range_succ, List.foldl_append, List.foldl_cons, List.foldl_nil]
      by_cases hc : f ((List.range n).foldl (fun cur j => if f cur < f j then j else cur) 0) < f n
      · rw [hfold, if_pos hc]
        refine ⟨by omega, ?_, ?_⟩
        · intro j hj
          rcases Nat.lt_succ_iff_lt_or_eq.mp hj with hj' | rfl
          · exact le_trans (ihub j hj') (le_of_lt hc)
          · exact le_refl _
        · intro j hj
          exact lt_of_le_of_lt (ihub j hj) hc
      · rw [hfold, if_neg hc]
        push_neg at hc
        refine ⟨by omega, ?_, ihfst⟩
        intro j hj
        rcases Nat.lt_succ_iff_lt_or_eq.mp hj with hj' | rfl
        · exact ihub j hj'
        · exact hc

lemma selectIdx_spec (areas : List ℚ) (h : areas ≠ []) :
    selectIdx areas < areas.length ∧
    (∀ j < areas.length, areas.getD j 0 ≤ areas.getD (selectIdx areas) 0) ∧
    (∀ j < selectIdx areas, areas.getD j 0 < areas.getD (selectIdx areas) 0) := by
  have hn : 0 < areas.length := List.length_pos.mpr h
  exact argmax_foldl (fun j => areas.getD j 0) areas.length hn

lemma truncQ_le_of_le (q : ℚ) (n : Int) (hn : 0 ≤ n) (h : q ≤ (n : ℚ)) : truncQ q ≤ n := by
  rw [truncQ]
  split
  · next hq =>
    have h0 : 0 ≤ ⌊-q⌋ := Int.floor_nonneg.mpr (by linarith)
    omega
  · next hq =>
    calc ⌊q⌋ ≤ ⌊(n : ℚ)⌋ := Int.floor_le_floor h
      _ = n := Int.floor_intCast n

lemma truncQ_nonneg (q : ℚ) (h : 0 ≤ q) : 0 ≤ truncQ q := by
  rw [truncQ, if_neg (by linarith)]
  exact Int.floor_nonneg.mpr h

/-! ### Claim theorems -/

/-- C1: for a known-length video with decoder frame count `F` and stride
`s ≥ 1`, with overwrite off, the planner computes
`expected_count = ceil(F / s)` and `targets = sorted({0..expected_count-1} −
existing)`: membership in the targets is exactly "below the expected count and
not existing", the target list is strictly ascending, it depends only on which
indices exist (not on the order they were recovered in), it is empty exactly
when every expected index already exists (and then the writer writes nothing),
and the gap-fill example `{0..9} − {3,7}` yields targets `[3,7]` for either
recovery order. -/
theorem plan_gap_fill_known (F : Nat) (s : Int) (existing existing' : List Nat)
    (hs : 1 ≤ s) (hmem : ∀ i, i ∈ existing ↔ i ∈ existing') :
    expectedSaves F s = ⌈(F : ℚ) / (s : ℚ)⌉₊ ∧
    (∀ i, i ∈ planTargets false (expectedSaves F s) existing ↔
      i < expectedSaves F s ∧ i ∉ existing) ∧
    List.Pairwise (· < ·) (planTargets false (expectedSaves F s) existing) ∧
    planTargets false (expectedSaves F s) existing =
      planTargets false (expectedSaves F s) existing' ∧
    (planTargets false (expectedSaves F s) existing = [] ↔
      ∀ i < expectedSaves F s, i ∈ existing) ∧
    (∀ decode : Int → Option Nat, planTargets false (expectedSaves F s) existing = [] →
      knownWriter decode s (planTargets false (expectedSaves F s) existing) = ([], 0)) ∧
    planTargets false 10 [9, 8, 6, 5, 4, 2, 1, 0] = [3, 7] ∧
    planTargets false 10 [0, 1, 2, 4, 5, 6, 8, 9] = [3, 7] := by
  have hs0 : 0 < s.toNat := by omega
  have hcast : (s : ℚ) = ((s.toNat : Nat) : ℚ) := by
    have h := Int.toNat_of_nonneg (by omega : (0:Int) ≤ s)
    exact_mod_cast h.symm
  refine ⟨?_, ?_, ?_, ?_, ?_, ?_, by decide, by decide⟩
  · rw [expectedSaves_of_pos F s hs, hcast, ceil_cast_div F s.toNat hs0, cdiv]
  · intro i
    simp [planTargets, List.mem_filter, List.mem_range, and_comm]
  · exact (List.pairwise_lt_range _).filter _
  · show (List.range _).filter _ = (List.range _).filter _
    apply List.filter_congr
    intro a _
    exact decide_eq_decide.mpr (not_congr (hmem a))
  · rw [show planTargets false (expectedSaves F s) existing =
      (List.range (expectedSaves F s)).filter (fun i => decide (i ∉ existing)) from rfl]
    rw [List.filter_eq_nil_iff]
    constructor
    · intro h i hi
      have := h i (List.mem_range.mpr hi)
      simpa using this
    · intro h a ha
      simpa using h a (List.mem_range.mp ha)
  · intro decode h
    rw [h]
    rfl

/-- C1 witness: the gap-fill scenario at frame count 10, stride 1, with the
existing indices recovered in descending and in ascending order. -/
theorem plan_gap_fill_known_witness :
    (1 : Int) ≤ 1 ∧
    planTargets false 10 [9, 8, 6, 5, 4, 2, 1, 0] = [3, 7] ∧
    planTargets false (expectedSaves 10 1) [9, 8, 6, 5, 4, 2, 1, 0] =
      planTargets false (expectedSaves 10 1) [0, 1, 2, 4, 5, 6, 8, 9] :=
  ⟨by decide,
   (plan_gap_fill_known 10 1 [9, 8, 6, 5, 4, 2, 1, 0] [0, 1, 2, 4, 5, 6, 8, 9]
      (by decide) (by intro i; simp; omega)).2.2.2.2.2.2.1,
   (plan_gap_fill_known 10 1 [9, 8, 6, 5, 4, 2, 1, 0] [0, 1, 2, 4, 5, 6, 8, 9]
      (by decide) (by intro i; simp; omega)).2.2.2.1⟩

/-- C2: unknown length, overwrite off: the writer starts at
`start = max(existing)+1` (or 0 with no existing index), seeks once to
`start * stride`, and then writes consecutive indices `start, start+1, ...`,
each save-index `start+j` holding the frame read at source position
`(start+j) * stride`, until the first read past the end of the stream; no
index below `start` is ever written (earlier gaps stay).  The resume example
(existing `{0..4}`, 10 frames, stride 1) yields exactly indices 5..9. -/
theorem unknown_sequential_resume (frames : List Nat) (s : Int) (existing : List Nat)
    (hs : 1 ≤ s) :
    (existing = [] → startIndexUnknown existing = 0) ∧
    (∀ m, existing.max? = some m → startIndexUnknown existing = m + 1) ∧
    unknownWriter frames s (startIndexUnknown existing) =
      (List.range (cdiv (frames.length - startIndexUnknown existing * s.toNat) s.toNat)).map
        (fun j => (startIndexUnknown existing + j,
          frames.getD ((startIndexUnknown existing + j) * s.toNat) 0)) ∧
    (∀ p ∈ unknownWriter frames s (startIndexUnknown existing),
      startIndexUnknown existing ≤ p.1) ∧
    unknownWriter (List.range 10) 1 (startIndexUnknown [0, 1, 2, 3, 4]) =
      [(5, 5), (6, 6), (7, 7), (8, 8), (9, 9)] := by
  refine ⟨?_, ?_, unknownWriter_sample frames s hs _, ?_, ?_⟩
  · intro h
    rw [h]
    rfl
  · intro m hm
    simp [startIndexUnknown, hm]
  · rw [unknownWriter_sample frames s hs _]
    intro p hp
    rcases List.mem_map.mp hp with ⟨j, _, rfl⟩
    exact Nat.le_add_right _ _
  · rw [show startIndexUnknown [0, 1, 2, 3, 4] = 5 from rfl,
      unknownWriter_sample (List.range 10) 1 (by norm_num) 5]
    decide

/-- C2 witness: the spec's unknown-length resume scenario. -/
theorem unknown_sequential_resume_witness :
    (1 : Int) ≤ 1 ∧
    unknownWriter (List.range 10) 1 (startIndexUnknown [0, 1, 2, 3, 4]) =
      [(5, 5), (6, 6), (7, 7), (8, 8), (9, 9)] :=
  ⟨by decide,
   (unknown_sequential_resume (List.range 10) 1 [0, 1, 2, 3, 4] (by decide)).2.2.2.2⟩

/-- C3 counterexample: with overwrite requested and unknown length, when index
0 already exists on disk the sequential path starts at index 1, not at index 0
as the claim states. -/
theorem overwrite_unknown_not_from_zero :
    mkUnknownStart true [0] = 1 ∧ (1 : Nat) ≠ 0 := ⟨rfl, by decide⟩

/-- C3 amended: with overwrite and known length, the targets are all indices
`0..expected-1` regardless of existing files; with overwrite and unknown
length the writer does NOT restart at index 0: the job is built from
`max(existing)+1` exactly as without overwrite (the `overwrite` flag is
ignored on this path), so prior frames below the resume point are not
re-written. -/
theorem overwrite_semantics (e : Nat) (existing : List Nat) (frames : List Nat) (s : Int) :
    planTargets true e existing = List.range e ∧
    (∀ i, i ∈ planTargets true e existing ↔ i < e) ∧
    mkUnknownStart true existing = mkUnknownStart false existing ∧
    unknownWriter frames s (mkUnknownStart true existing) =
      unknownWriter frames s (mkUnknownStart false existing) ∧
    (existing = [] → mkUnknownStart true existing = 0) ∧
    (∀ m, existing.max? = some m → mkUnknownStart true existing = m + 1) := by
  refine ⟨rfl, ?_, rfl, rfl, ?_, ?_⟩
  · intro i
    simp [planTargets, List.mem_range]
  · intro h
    rw [h]
    rfl
  · intro m hm
    simp [mkUnknownStart, startIndexUnknown, hm]

/-- C3 witness: overwrite with known length at expected count 3 and stray
existing indices, and the unknown-length start index for existing `[0]`. -/
theorem overwrite_semantics_witness :
    planTargets true 3 [0, 5] = List.range 3 ∧
    ([0] : List Nat).max? = some 0 ∧ mkUnknownStart true [0] = 0 + 1 :=
  ⟨(overwrite_semantics 3 [0, 5] [] 1).1, by decide,
   (overwrite_semantics 3 [0] [] 1).2.2.2.2.2 0 (by decide)⟩

/-- C4 counterexample: with the configured stride 0 (a value ≤ 1) the
known-length writer does not behave as stride 1 in the seek mapping:
save-index 1 is written with the frame read at source position 0, whereas at
stride 1 it holds the frame at source position 1. -/
theorem stride_zero_not_normalized :
    knownWriter posDecoder 0 [1] = ([(1, 0)], 1) ∧
    knownWriter posDecoder 1 [1] = ([(1, 1)], 1) ∧
    knownWriter posDecoder 0 [1] ≠ knownWriter posDecoder 1 [1] := by
  refine ⟨by decide, by decide, by decide⟩

/-- C4 amended: every frame the known-length writer produces at save-index
`i` is the one read after seeking to source frame `i * stride` with the raw
configured stride (the writer's output is exactly the target list filtered
through `decode (i * stride)`); the stride ≤ 1 normalization applies only in
the expected-count computation, where any stride ≤ 1 behaves as stride 1. -/
theorem stride_mapping (decode : Int → Option Nat) (s : Int) (F : Nat) (targets : List Nat) :
    (∀ i f, (i, f) ∈ (knownWriter decode s targets).1 → decode ((i : Int) * s) = some f) ∧
    (knownWriter decode s targets).1 =
      targets.filterMap (fun (i : Nat) => (decode ((i : Int) * s)).map (fun f => (i, f))) ∧
    (s ≤ 1 → expectedSaves F s = expectedSaves F 1) ∧
    expectedSaves F 1 = F := by
  have hchar := (knownWriter_char decode s targets).1
  have hone : expectedSaves F 1 = F := by
    rw [expectedSaves]
    norm_num
  refine ⟨?_, hchar, ?_, hone⟩
  · intro i f hif
    rw [hchar] at hif
    rcases List.mem_filterMap.mp hif with ⟨j, _, hj⟩
    rcases Option.map_eq_some'.mp hj with ⟨g, hg, hpair⟩
    have h1 : j = i := congrArg Prod.fst hpair
    have h2 : g = f := congrArg Prod.snd hpair
    rw [← h1, ← h2]
    exact hg
  · intro hle
    have hsle : expectedSaves F s = F := by
      rw [expectedSaves, max_eq_right hle]
      norm_num
    rw [hsle, hone]

/-- C4 witness: stride 0 with a decoder exposing positions. -/
theorem stride_mapping_witness :
    (0 : Int) ≤ 1 ∧ expectedSaves 7 0 = expectedSaves 7 1 ∧
    ((1, 0) ∈ (knownWriter posDecoder 0 [1]).1 → posDecoder (((1 : Nat) : Int) * 0) = some 0) :=
  ⟨by decide, (stride_mapping posDecoder 0 7 [1]).2.2.1 (by decide),
   fun h => (stride_mapping posDecoder 0 7 [1]).1 1 0 h⟩

lemma knownWriter_erase_failed (decode : Int → Option Nat) (s : Int) (i : Nat)
    (hfail : decode ((i : Int) * s) = none) :
    ∀ targets : List Nat,
      knownWriter decode s targets = knownWriter decode s (targets.filter (fun j => j ≠ i)) := by
  intro targets
  induction targets with
  | nil => rfl
  | cons j rest ih =>
    rcases eq_or_ne j i with rfl | hj
    · rw [List.filter_cons, if_neg (by simp)]
      show knownWriter decode s (j :: rest) = _
      simp [knownWriter, hfail, ih]
    · rw [List.filter_cons, if_pos (by simpa using hj)]
      cases hd : decode ((j : Int) * s) with
      | none => simp [knownWriter, hd, ih]
      | some f => simp [knownWriter, hd, ih]

/-- C6: if the decoder read at `i * stride` fails for a target index `i`, the
known-length writer creates no file at index `i` (the index stays missing),
the progress counter counts only the targets whose read succeeded, and the
run's output is exactly what it would be with the failing index dropped from
the target list — the remaining targets are unaffected. -/
theorem decode_failure_skips (decode : Int → Option Nat) (s : Int) (targets : List Nat)
    (i : Nat) (hmemt : i ∈ targets) (hfail : decode ((i : Int) * s) = none) :
    i ∉ (knownWriter decode s targets).1.map Prod.fst ∧
    (∀ f, (i, f) ∉ (knownWriter decode s targets).1) ∧
    (knownWriter decode s targets).2 =
      (targets.filter (fun (j : Nat) => (decode ((j : Int) * s)).isSome)).length ∧
    knownWriter decode s targets = knownWriter decode s (targets.filter (fun j => j ≠ i)) := by
  have hchar := knownWriter_char decode s targets
  have hnotin : ∀ f, (i, f) ∉ (knownWriter decode s targets).1 := by
    intro f hin
    rw [hchar.1] at hin
    rcases List.mem_filterMap.mp hin with ⟨j, _, hj⟩
    rcases Option.map_eq_some'.mp hj with ⟨g, hg, hpair⟩
    have h1 : j = i := congrArg Prod.fst hpair
    rw [h1, hfail] at hg
    exact absurd hg (by simp)
  refine ⟨?_, hnotin, hchar.2, knownWriter_erase_failed decode s i hfail targets⟩
  intro hin
  rcases List.mem_map.mp hin with ⟨p, hp, hfst⟩
  obtain ⟨p1, p2⟩ := p
  exact hnotin p2 (by rwa [show p1 = i from hfst] at hp)

/-- C6 witness: three targets at stride 1 with the read failing at index 1:
no file for index 1, progress 2, and the run equals the run on targets 0, 2. -/
theorem decode_failure_skips_witness :
    (1 ∈ [0, 1, 2]) ∧
    ((fun n => if n = 1 then none else some 7) (((1 : Nat) : Int) * 1) = none) ∧
    1 ∉ (knownWriter (fun n => if n = 1 then none else some 7) 1 [0, 1, 2]).1.map Prod.fst :=
  ⟨by decide, by decide,
   (decode_failure_skips (fun n => if n = 1 then none else some 7) 1 [0, 1, 2] 1
      (by decide) (by decide)).1⟩

/-- C9: the detection-crop stage skips an image with zero returned boxes (no
crop, no error); otherwise exactly one box is used — the one whose area
`w * h` is maximal, the earliest such box on ties — and the returned
confidence scores play no role in the selection. -/
theorem largest_box_selected (boxes : List (ℚ × ℚ × ℚ × ℚ)) (scores scores' : List ℚ)
    (W H : Nat) (hne : boxes ≠ []) :
    dinoStep [] scores W H = CropAction.skipNoBoxes ∧
    selectIdx (boxes.map boxArea) < boxes.length ∧
    (∀ j < boxes.length,
      boxArea (boxes.getD j (0, 0, 0, 0)) ≤
        boxArea (boxes.getD (selectIdx (boxes.map boxArea)) (0, 0, 0, 0))) ∧
    (∀ j < selectIdx (boxes.map boxArea),
      boxArea (boxes.getD j (0, 0, 0, 0)) <
        boxArea (boxes.getD (selectIdx (boxes.map boxArea)) (0, 0, 0, 0))) ∧
    dinoStep boxes scores W H =
      CropAction.write
        (cropBounds (boxes.getD (selectIdx (boxes.map boxArea)) (0, 0, 0, 0)).1
          (boxes.getD (selectIdx (boxes.map boxArea)) (0, 0, 0, 0)).2.1
          (boxes.getD (selectIdx (boxes.map boxArea)) (0, 0, 0, 0)).2.2.1
          (boxes.getD (selectIdx (boxes.map boxArea)) (0, 0, 0, 0)).2.2.2 W H) ∧
    dinoStep boxes scores W H = dinoStep boxes scores' W H := by
  have hlen : (boxes.map boxArea).length = boxes.length := List.length_map boxes boxArea
  have hmapne : boxes.map boxArea ≠ [] := by
    intro hcon
    exact hne (List.map_eq_nil_iff.mp hcon)
  obtain ⟨hlt, hub, hfst⟩ := selectIdx_spec (boxes.map boxArea) hmapne
  rw [hlen] at hlt
  have hgetD : ∀ j, j < boxes.length →
      (boxes.map boxArea).getD j 0 = boxArea (boxes.getD j (0, 0, 0, 0)) := by
    intro j hj
    rw [List.getD_eq_getElem _ _ (by rw [hlen]; exact hj), List.getD_eq_getElem _ _ hj]
    simp
  have h0 : ¬ boxes.length = 0 := by
    simpa [List.length_eq_zero] using hne
  refine ⟨rfl, hlt, ?_, ?_, ?_, rfl⟩
  · intro j hj
    have := hub j (by rw [hlen]; exact hj)
    rwa [hgetD j hj, hgetD _ hlt] at this
  · intro j hj
    have := hfst j hj
    rwa [hgetD j (lt_trans hj hlt), hgetD _ hlt] at this
  · rw [dinoStep, if_neg h0]

/-- C9 witness: three boxes with areas 1, 4, 4: the first maximal-area box
(index 1) is selected, whatever the scores are. -/
theorem largest_box_selected_witness :
    ([((0:ℚ), (0:ℚ), (1:ℚ), (1:ℚ)), (0, 0, 2, 2), (0, 0, 2, 2)] : List (ℚ × ℚ × ℚ × ℚ)) ≠ [] ∧
    selectIdx (([((0:ℚ), (0:ℚ), (1:ℚ), (1:ℚ)), (0, 0, 2, 2), (0, 0, 2, 2)] :
      List (ℚ × ℚ × ℚ × ℚ)).map boxArea) <
      ([((0:ℚ), (0:ℚ), (1:ℚ), (1:ℚ)), (0, 0, 2, 2), (0, 0, 2, 2)] :
        List (ℚ × ℚ × ℚ × ℚ)).length ∧
    dinoStep [((0:ℚ), (0:ℚ), (1:ℚ), (1:ℚ)), (0, 0, 2, 2), (0, 0, 2, 2)] [9] 100 100 =
      dinoStep [((0:ℚ), (0:ℚ), (1:ℚ), (1:ℚ)), (0, 0, 2, 2), (0, 0, 2, 2)] [1] 100 100 :=
  ⟨by simp,
   (largest_box_selected [((0:ℚ), (0:ℚ), (1:ℚ), (1:ℚ)), (0, 0, 2, 2), (0, 0, 2, 2)]
      [9] [1] 100 100 (by simp)).2.1,
   (largest_box_selected [((0:ℚ), (0:ℚ), (1:ℚ), (1:ℚ)), (0, 0, 2, 2), (0, 0, 2, 2)]
      [9] [1] 100 100 (by simp)).2.2.2.2.2⟩

/-- C10: the scanner accepts a saved index through any of the extensions jpg,
jpeg, png in any letter case — its result does not depend on the run's
configured extension, which it never sees — so an index saved by a previous
run in a different format is recovered, excluded from the known-length
targets, and never re-produced. -/
theorem scanner_ext_independent (base ext : List Char) (i e : Nat) (fs : List (List Char))
    (hb : base ≠ []) (he : lowName ext ∈ EXTS) (hi : i < 1000000) :
    matchFrame (writtenName base i ext) = some (base, i) ∧
    i ∈ existing_indices (writtenName base i ext :: fs) base ∧
    i ∉ planTargets false e (existing_indices (writtenName base i ext :: fs) base) := by
  have hm := matchFrame_writtenName base ext i hb hi he
  have hmem : i ∈ existing_indices (writtenName base i ext :: fs) base := by
    rw [mem_existing_indices]
    exact ⟨_, List.mem_cons_self _ _, hm⟩
  refine ⟨hm, hmem, ?_⟩
  intro hcon
  have : i ∉ existing_indices (writtenName base i ext :: fs) base := by
    have := List.mem_filter.mp hcon
    simpa using this.2
  exact this hmem

/-- C10 witness: an index saved as upper-case JPG is found by the scanner and
excluded from the targets of a later run (which would write png files). -/
theorem scanner_ext_independent_witness :
    (['v'] : List Char) ≠ [] ∧ lowName ['J', 'P', 'G'] ∈ EXTS ∧ (3 : Nat) < 1000000 ∧
    3 ∉ planTargets false 10 (existing_indices [writtenName ['v'] 3 ['J', 'P', 'G']] ['v']) :=
  ⟨by decide, by decide, by decide,
   (scanner_ext_independent ['v'] ['J', 'P', 'G'] 3 10 [] (by decide) (by decide)
      (by decide)).2.2⟩

/-- C7 counterexample: the code truncates pixel bounds with `int()` instead of
rounding: for the box `(cx = 1/2, cy = 1/2, w = 1/8, h = 1/8)` on a 100x100
image the code computes x1 = int(43.75) = 43, while the claimed rounding
gives round(43.75) = 44 (the value 43.75 is exact in binary floats, so the
divergence is not a float artifact). -/
theorem crop_bounds_not_round :
    cropBounds (1/2) (1/2) (1/8) (1/8) 100 100 = (43, 43, 56, 56) ∧
    cropBoundsSpec (1/2) (1/2) (1/8) (1/8) 100 100 = (44, 44, 56, 56) ∧
    cropBounds (1/2) (1/2) (1/8) (1/8) 100 100 ≠
      cropBoundsSpec (1/2) (1/2) (1/8) (1/8) 100 100 := by
  have h1 : cropBounds (1/2) (1/2) (1/8) (1/8) 100 100 = (43, 43, 56, 56) := by
    norm_num [cropBounds, truncQ, Int.floor_eq_iff, Prod.ext_iff]
  have h2 : cropBoundsSpec (1/2) (1/2) (1/8) (1/8) 100 100 = (44, 44, 56, 56) := by
    norm_num [cropBoundsSpec, round_eq, Int.floor_eq_iff, Prod.ext_iff]
  refine ⟨h1, h2, ?_⟩
  rw [h1, h2]
  decide

/-- C7 amended: the pixel bounds are computed with `int()` truncation toward
zero (not rounding); for boxes with all coordinates normalized to `[0,1]` the
code's one-sided clamps (`max 0` on x1, y1 and `min W` / `min H` on x2, y2)
coincide with clamping every bound to the full interval `[0,W]` / `[0,H]`;
the centered half-size box on 100x100 gives (25,25,75,75) and a box past the
right/bottom edge clamps to 100. -/
theorem crop_bounds_trunc_clamp (cx cy w h : ℚ) (W H : Nat)
    (hcx0 : 0 ≤ cx) (hcx1 : cx ≤ 1) (hcy0 : 0 ≤ cy) (hcy1 : cy ≤ 1)
    (hw0 : 0 ≤ w) (hw1 : w ≤ 1) (hh0 : 0 ≤ h) (hh1 : h ≤ 1) :
    cropBounds cx cy w h W H =
      (min (W : Int) (max 0 (truncQ ((cx - w / 2) * (W : ℚ)))),
       min (H : Int) (max 0 (truncQ ((cy - h / 2) * (H : ℚ)))),
       min (W : Int) (max 0 (truncQ ((cx + w / 2) * (W : ℚ)))),
       min (H : Int) (max 0 (truncQ ((cy + h / 2) * (H : ℚ))))) ∧
    cropBounds (1/2) (1/2) (1/2) (1/2) 100 100 = (25, 25, 75, 75) ∧
    cropBounds (9/10) (9/10) (1/2) (1/2) 100 100 = (65, 65, 100, 100) := by
  refine ⟨?_, ?_, ?_⟩
  · have hWQ : (0:ℚ) ≤ (W:ℚ) := Nat.cast_nonneg W
    have hHQ : (0:ℚ) ≤ (H:ℚ) := Nat.cast_nonneg H
    have hWc : ((W:Int):ℚ) = (W:ℚ) := by push_cast; ring
    have hHc : ((H:Int):ℚ) = (H:ℚ) := by push_cast; ring
    have hx1 : truncQ ((cx - w / 2) * (W:ℚ)) ≤ (W:Int) := by
      apply truncQ_le_of_le _ _ (Int.natCast_nonneg W)
      rw [hWc]
      exact mul_le_of_le_one_left hWQ (by linarith)
    have hy1 : truncQ ((cy - h / 2) * (H:ℚ)) ≤ (H:Int) := by
      apply truncQ_le_of_le _ _ (Int.natCast_nonneg H)
      rw [hHc]
      exact mul_le_of_le_one_left hHQ (by linarith)
    have hx2 : 0 ≤ truncQ ((cx + w / 2) * (W:ℚ)) :=
      truncQ_nonneg _ (mul_nonneg (by linarith) hWQ)
    have hy2 : 0 ≤ truncQ ((cy + h / 2) * (H:ℚ)) :=
      truncQ_nonneg _ (mul_nonneg (by linarith) hHQ)
    rw [cropBounds]
    simp only [Prod.mk.injEq]
    refine ⟨?_, ?_, ?_, ?_⟩
    · exact (min_eq_right (max_le (Int.natCast_nonneg W) hx1)).symm
    · exact (min_eq_right (max_le (Int.natCast_nonneg H) hy1)).symm
    · rw [max_eq_right hx2]
    · rw [max_eq_right hy2]
  · norm_num [cropBounds, truncQ, Int.floor_eq_iff, Prod.ext_iff]
  · norm_num [cropBounds, truncQ, Int.floor_eq_iff, Prod.ext_iff]

/-- C7 witness: the normalization hypotheses and the centered-box example. -/
theorem crop_bounds_trunc_clamp_witness :
    (0:ℚ) ≤ 1/2 ∧ (1:ℚ)/2 ≤ 1 ∧
    cropBounds (1/2) (1/2) (1/2) (1/2) 100 100 = (25, 25, 75, 75) :=
  ⟨by norm_num, by norm_num,
   (crop_bounds_trunc_clamp (1/2) (1/2) (1/2) (1/2) 100 100 (by norm_num) (by norm_num)
      (by norm_num) (by norm_num) (by norm_num) (by norm_num) (by norm_num)
      (by norm_num)).2.1⟩

lemma dinoStep_singleton (b : ℚ × ℚ × ℚ × ℚ) (scores : List ℚ) (W H : Nat) :
    dinoStep [b] scores W H =
      CropAction.write (cropBounds b.1 b.2.1 b.2.2.1 b.2.2.2 W H) := by
  rw [dinoStep, if_neg (by norm_num)]
  have hsel : selectIdx ([b].map boxArea) = 0 := by
    rw [selectIdx, show ([b].map boxArea).length = 1 from rfl,
      show List.range 1 = [0] from by decide,
      List.foldl_cons, List.foldl_nil, if_neg (lt_irrefl _)]
  rw [hsel]
  rfl

/-- C8 counterexample: a degenerate box (zero width and height, so x2 ≤ x1
after clamping) is not skipped: the crop stage still emits a write action,
with the empty pixel bounds (50, 50, 50, 50), instead of producing no output
for the image. -/
theorem degenerate_box_not_skipped :
    dinoStep [(1/2, 1/2, 0, 0)] [1] 100 100 = CropAction.write (50, 50, 50, 50) ∧
    ((50 : Int) ≤ 50 ∧ (50 : Int) ≤ 50) ∧
    dinoStep [(1/2, 1/2, 0, 0)] [1] 100 100 ≠ CropAction.skipNoBoxes := by
  have h1 : dinoStep [(1/2, 1/2, 0, 0)] [1] 100 100 = CropAction.write (50, 50, 50, 50) := by
    rw [dinoStep_singleton]
    norm_num [cropBounds, truncQ, Int.floor_eq_iff, Prod.ext_iff]
  refine ⟨h1, ⟨le_refl _, le_refl _⟩, ?_⟩
  rw [h1]
  simp

/-- C8 amended: the crop stage performs no degeneracy check: for every
nonempty box list it emits a write action for the selected box — degenerate
or not — handing the (possibly empty) crop region unconditionally to the
image writer, rather than skipping the image. -/
theorem degenerate_box_still_written (boxes : List (ℚ × ℚ × ℚ × ℚ)) (scores : List ℚ)
    (W H : Nat) (hne : boxes ≠ []) :
    dinoStep boxes scores W H =
      CropAction.write
        (cropBounds (boxes.getD (selectIdx (boxes.map boxArea)) (0, 0, 0, 0)).1
          (boxes.getD (selectIdx (boxes.map boxArea)) (0, 0, 0, 0)).2.1
          (boxes.getD (selectIdx (boxes.map boxArea)) (0, 0, 0, 0)).2.2.1
          (boxes.getD (selectIdx (boxes.map boxArea)) (0, 0, 0, 0)).2.2.2 W H) ∧
    dinoStep boxes scores W H ≠ CropAction.skipNoBoxes := by
  have h0 : ¬ boxes.length = 0 := by
    simpa [List.length_eq_zero] using hne
  constructor
  · rw [dinoStep, if_neg h0]
  · rw [dinoStep, if_neg h0]
    simp

/-- C8 witness: the degenerate zero-size box is still written. -/
theorem degenerate_box_still_written_witness :
    ([((1:ℚ)/2, (1:ℚ)/2, (0:ℚ), (0:ℚ))] : List (ℚ × ℚ × ℚ × ℚ)) ≠ [] ∧
    dinoStep [((1:ℚ)/2, (1:ℚ)/2, (0:ℚ), (0:ℚ))] [1] 100 100 ≠ CropAction.skipNoBoxes :=
  ⟨by simp,
   (degenerate_box_still_written [((1:ℚ)/2, (1:ℚ)/2, (0:ℚ), (0:ℚ))] [1] 100 100
      (by simp)).2⟩

lemma known_idempotent_aux (F : Nat) (s : Int) (base ext : List Char) (fs : List (List Char))
    (hs : 1 ≤ s) (hb : base ≠ []) (he : lowName ext ∈ EXTS)
    (hE : expectedSaves F s ≤ 1000000) :
    planTargets false (expectedSaves F s) (existing_indices
      (fs ++ (planTargets false (expectedSaves F s) (existing_indices fs base)).map
        (fun i => writtenName base i ext)) base) = [] := by
  set e := expectedSaves F s with hedef
  set fs2 := fs ++ (planTargets false e (existing_indices fs base)).map
    (fun i => writtenName base i ext) with hfs2
  rw [show planTargets false e (existing_indices fs2 base) =
    (List.range e).filter (fun i => decide (i ∉ existing_indices fs2 base)) from rfl]
  rw [List.filter_eq_nil_iff]
  intro a ha
  have halt : a < e := List.mem_range.mp ha
  simp only [decide_eq_true_eq, not_not]
  rw [hfs2, mem_existing_indices]
  by_cases hx : a ∈ existing_indices fs base
  · rcases (mem_existing_indices fs base a).mp hx with ⟨f, hf, hm⟩
    exact ⟨f, List.mem_append_left _ hf, hm⟩
  · refine ⟨writtenName base a ext, ?_,
      matchFrame_writtenName base ext a hb (by omega) he⟩
    apply List.mem_append_right
    apply List.mem_map_of_mem
    exact List.mem_filter.mpr ⟨ha, by simpa using hx⟩

lemma unknown_idempotent_aux (frames : List Nat) (s : Int) (base ext : List Char)
    (fs : List (List Char)) (hs : 1 ≤ s) (hb : base ≠ []) (he : lowName ext ∈ EXTS)
    (hlen : frames.length ≤ 1000000 * s.toNat) :
    unknownWriter frames s (startIndexUnknown (existing_indices
      (fs ++ (unknownWriter frames s (startIndexUnknown (existing_indices fs base))).map
        (fun p => writtenName base p.1 ext)) base)) = [] := by
  have hm0 : 0 < s.toNat := by omega
  set st1 := startIndexUnknown (existing_indices fs base) with hst1
  set k := cdiv (frames.length - st1 * s.toNat) s.toNat with hk
  have hout1 := unknownWriter_sample frames s hs st1
  rw [← hk] at hout1
  have hidx : ∀ j, j < k → (st1 + j) * s.toNat < frames.length := by
    intro j hj
    have h1 := lt_cdiv_mul_lt (frames.length - st1 * s.toNat) s.toNat j hm0 (hk ▸ hj)
    rw [Nat.add_mul]
    omega
  have hjlt : ∀ j, j < k → st1 + j < 1000000 := by
    intro j hj
    have h1 := hidx j hj
    have h2 : (st1 + j) * s.toNat < 1000000 * s.toNat := lt_of_lt_of_le h1 hlen
    exact Nat.lt_of_mul_lt_mul_right h2
  set fs2 := fs ++ (unknownWriter frames s st1).map (fun p => writtenName base p.1 ext)
    with hfs2
  have hmem2 : ∀ a, a ∈ existing_indices fs2 base ↔
      (a ∈ existing_indices fs base ∨ ∃ j, j < k ∧ a = st1 + j) := by
    intro a
    rw [hfs2, mem_existing_indices]
    constructor
    · rintro ⟨f, hf, hmf⟩
      rcases List.mem_append.mp hf with hf | hf
      · exact Or.inl ((mem_existing_indices fs base a).mpr ⟨f, hf, hmf⟩)
      · right
        rcases List.mem_map.mp hf with ⟨p, hp, rfl⟩
        rw [hout1] at hp
        rcases List.mem_map.mp hp with ⟨j, hj, rfl⟩
        have hjk : j < k := List.mem_range.mp hj
        have hrt := matchFrame_writtenName base ext (st1 + j) hb (hjlt j hjk) he
        rw [show ((st1 + j, frames.getD ((st1 + j) * s.toNat) 0) : Nat × Nat).1 = st1 + j
          from rfl] at hmf
        rw [hrt] at hmf
        injection hmf with hpair
        exact ⟨j, hjk, (congrArg Prod.snd hpair).symm⟩
    · rintro (hx | ⟨j, hjk, rfl⟩)
      · obtain ⟨f, hf, hmf⟩ := (mem_existing_indices fs base a).mp hx
        exact ⟨f, List.mem_append_left _ hf, hmf⟩
      · refine ⟨writtenName base (st1 + j) ext, ?_,
          matchFrame_writtenName base ext (st1 + j) hb (hjlt j hjk) he⟩
        apply List.mem_append_right
        refine List.mem_map.mpr ⟨(st1 + j, frames.getD ((st1 + j) * s.toNat) 0), ?_, rfl⟩
        rw [hout1]
        exact List.mem_map.mpr ⟨j, List.mem_range.mpr hjk, rfl⟩
  by_cases hk0 : k = 0
  · have hout1nil : unknownWriter frames s st1 = [] := by
      rw [hout1, hk0]
      simp
    have hfs2eq : fs2 = fs := by
      rw [hfs2, hout1nil]
      simp
    rw [hfs2eq, ← hst1]
    exact hout1nil
  · have hmemtop : st1 + k - 1 ∈ existing_indices fs2 base := by
      have h1 := (hmem2 (st1 + (k - 1))).mpr (Or.inr ⟨k - 1, by omega, rfl⟩)
      have h2 : st1 + (k - 1) = st1 + k - 1 := by omega
      rwa [h2] at h1
    have hub2 : ∀ b ∈ existing_indices fs2 base, b ≤ st1 + k - 1 := by
      intro b hbmem
      rcases (hmem2 b).mp hbmem with hx | ⟨j, hjk, rfl⟩
      · cases hmx : (existing_indices fs base).max? with
        | none =>
          cases hexnil : existing_indices fs base with
          | nil =>
            rw [hexnil] at hx
            exact absurd hx (List.not_mem_nil b)
          | cons y ys =>
            rw [hexnil] at hmx
            exact absurd hmx (by simp [List.max?])
        | some mx =>
          have hble := mem_le_of_max?_eq _ mx b hmx hx
          have hst1v : st1 = mx + 1 := by
            rw [hst1]
            simp only [startIndexUnknown, hmx]
          omega
      · omega
    have hmax2 : (existing_indices fs2 base).max? = some (st1 + k - 1) :=
      max?_eq_some_of _ _ hmemtop hub2
    have hst2 : startIndexUnknown (existing_indices fs2 base) = st1 + k := by
      simp only [startIndexUnknown, hmax2]
      omega
    rw [hst2, unknownWriter_sample frames s hs (st1 + k)]
    have hge : frames.length ≤ (st1 + k) * s.toNat := by
      have h1 := cdiv_mul_ge (frames.length - st1 * s.toNat) s.toNat hm0
      rw [← hk] at h1
      rw [Nat.add_mul]
      omega
    rw [show frames.length - (st1 + k) * s.toNat = 0 from by omega]
    rw [cdiv_eq_zero _ hm0, List.range_zero, List.map_nil]

/-- C5 counterexample: idempotence fails for a configuration whose image
extension is outside the scanner's pattern.  With extension `bmp`, a completed
first run (one video, expected count 1, starting from an empty directory,
every write succeeding) leaves a file the scanner cannot see, so the
identical second run plans index 0 again instead of performing zero writes. -/
theorem idempotence_fails_unscanned_ext :
    planTargets false 1 (existing_indices
      ((planTargets false 1 (existing_indices [] ['v'])).map
        (fun i => writtenName ['v'] i ['b', 'm', 'p'])) ['v']) = [0] ∧
    ([0] : List Nat) ≠ [] := by
  constructor
  · decide
  · decide

/-- C5 amended: running extraction twice with identical configuration and no
intervening file changes performs zero writes on the second run, provided the
configured image extension is one the scanner's pattern matches (jpg / jpeg /
png, any case) and the index space is not exhausted.  Known length: if the
first run's planned writes all succeed, the second run's target set is empty
(requires `expected_count ≤ 10^6`, since larger indices do not fit the
six-digit filename field and would never be recovered).  Unknown length: the
second run's resume point is past the last stream frame, so its sequential
writer stops at once with no writes (requires the sampled positions of
indices up to `10^6` to cover the stream, `length ≤ 10^6 * stride`). -/
theorem second_run_zero_writes :
    (∀ (F : Nat) (s : Int) (base ext : List Char) (fs : List (List Char)),
      1 ≤ s → base ≠ [] → lowName ext ∈ EXTS → expectedSaves F s ≤ 1000000 →
      planTargets false (expectedSaves F s) (existing_indices
        (fs ++ (planTargets false (expectedSaves F s) (existing_indices fs base)).map
          (fun i => writtenName base i ext)) base) = []) ∧
    (∀ (frames : List Nat) (s : Int) (base ext : List Char) (fs : List (List Char)),
      1 ≤ s → base ≠ [] → lowName ext ∈ EXTS → frames.length ≤ 1000000 * s.toNat →
      unknownWriter frames s (startIndexUnknown (existing_indices
        (fs ++ (unknownWriter frames s (startIndexUnknown (existing_indices fs base))).map
          (fun p => writtenName base p.1 ext)) base)) = []) :=
  ⟨fun F s base ext fs hs hb he hE => known_idempotent_aux F s base ext fs hs hb he hE,
   fun frames s base ext fs hs hb he hlen =>
     unknown_idempotent_aux frames s base ext fs hs hb he hlen⟩

/-- C5 witness: a 3-frame known-length video and a 4-frame unknown-length
stream at stride 1, extension png, starting from an empty directory. -/
theorem second_run_zero_writes_witness :
    (1 : Int) ≤ 1 ∧ (['v'] : List Char) ≠ [] ∧ lowName ['p', 'n', 'g'] ∈ EXTS ∧
    expectedSaves 3 1 ≤ 1000000 ∧
    planTargets false (expectedSaves 3 1) (existing_indices
      (([] : List (List Char)) ++ (planTargets false (expectedSaves 3 1)
        (existing_indices [] ['v'])).map
          (fun i => writtenName ['v'] i ['p', 'n', 'g'])) ['v']) = [] ∧
    (List.range 4).length ≤ 1000000 * (1 : Int).toNat ∧
    unknownWriter (List.range 4) 1 (startIndexUnknown (existing_indices
      (([] : List (List Char)) ++ (unknownWriter (List.range 4) 1 (startIndexUnknown
        (existing_indices [] ['v']))).map
          (fun p => writtenName ['v'] p.1 ['p', 'n', 'g'])) ['v'])) = [] :=
  ⟨by decide, by decide, by decide, by decide,
   second_run_zero_writes.1 3 1 ['v'] ['p', 'n', 'g'] [] (by decide) (by decide)
     (by decide) (by decide),
   by decide,
   second_run_zero_writes.2 (List.range 4) 1 ['v'] ['p', 'n', 'g'] [] (by decide)
     (by decide) (by decide) (by decide)⟩
